import Mathlib

/-!
Shallow embedding of the package-feed ingestion engine of an OpenWrt
firmware-configurator web application, together with proofs of the
specification's claims about it.

The embedding covers:
* the `Packages`-text-format parser (`parsePackagesFile`, `parsePackageBlock`,
  `parseDependencies`),
* the mapping of decoded APK-v3 binary (ADB) index entries to package records
  (`mapAdbPackages`, `cleanAdbDependency`),
* feed-URL generation (`generateFeedUrls`),
* the dependency-tree traversal (`getDependencyTree`),
* the custom-build store snapshot (`getSnapshot`).

JavaScript-level conventions used throughout the embedding:
* a TS `string | undefined` field is `Option String`; JS truthiness of a
  string is "`some` of a non-empty string";
* `parseInt(v, 10) || 0` is modelled by `jsParseIntOr0`;
* a `depends` field left `undefined` by the parser is modelled as `[]`,
  which is observationally equivalent for every consumer in the code
  (`pkg.depends?.includes`, `if (pkg && pkg.depends)`);
* the JS string operations `trim`, `split` and `substring`-after-`indexOf`
  are modelled by structurally recursive functions on the character list of
  the string, so that every definition evaluates inside the kernel.
-/

/-- Model of JavaScript `String.prototype.trim` on a character list: strip
whitespace from both ends. -/
def jsTrimList (cs : List Char) : List Char :=
  ((cs.dropWhile Char.isWhitespace).reverse.dropWhile Char.isWhitespace).reverse

/-- Model of JavaScript `String.prototype.trim`. -/
def jsTrim (s : String) : String :=
  String.mk (jsTrimList s.data)

/-- Accumulator pass for splitting a character list at every occurrence of a
single separator character, as JavaScript `split` does with a one-character
separator. -/
def splitOnCharAux (sep : Char) : List Char → List Char → List (List Char)
  | [], acc => [acc.reverse]
  | c :: rest, acc =>
    if c = sep then acc.reverse :: splitOnCharAux sep rest []
    else splitOnCharAux sep rest (c :: acc)

/-- Model of JavaScript `s.split(sep)` for a one-character separator. -/
def jsSplitChar (sep : Char) (s : String) : List String :=
  (splitOnCharAux sep s.data []).map String.mk

/-- Accumulator pass splitting a character list at every (leftmost,
non-overlapping) occurrence of two consecutive newlines, as JavaScript
`content.split('\n\n')` does. -/
def splitBlocksAux : List Char → List Char → List (List Char)
  | '\n' :: '\n' :: rest, acc => acc.reverse :: splitBlocksAux rest []
  | c :: rest, acc => splitBlocksAux rest (c :: acc)
  | [], acc => [acc.reverse]

/-- Model of JavaScript `content.split('\n\n')`. -/
def jsSplitBlocks (s : String) : List String :=
  (splitBlocksAux s.data []).map String.mk

/-- Split a character list at the first colon: `none` when there is none,
otherwise the characters before it and the characters after it.  This models
`line.indexOf(':')` followed by the two `line.substring` calls in
`parsePackageBlock`. -/
def splitFirstColon : List Char → Option (List Char × List Char)
  | [] => none
  | c :: rest =>
    if c = ':' then some ([], rest)
    else (splitFirstColon rest).map (fun p => (c :: p.1, p.2))

/-- Integer value of a list of decimal digit characters. -/
def digitsVal (ds : List Char) : Nat :=
  ds.foldl (fun a c => a * 10 + (c.toNat - 48)) 0

/-- Model of JavaScript `parseInt(s, 10)`: skip leading whitespace, read an
optional sign and then a maximal run of decimal digits; `none` models `NaN`
(no digits found). -/
def jsParseInt (s : String) : Option Int :=
  let cs := s.data.dropWhile Char.isWhitespace
  let signAndRest : Int × List Char :=
    match cs with
    | '-' :: t => (-1, t)
    | '+' :: t => (1, t)
    | _ => (1, cs)
  let digits := signAndRest.2.takeWhile Char.isDigit
  if digits.isEmpty then none
  else some (signAndRest.1 * (digitsVal digits : Int))

/-- Model of the JavaScript expression `parseInt(v, 10) || 0`: `NaN` is
replaced by `0` (and `parseInt` returning `0` gives `0` as well, so `getD`
is exact). -/
def jsParseIntOr0 (s : String) : Int :=
  (jsParseInt s).getD 0

/-- Model of splitting a line at its first colon, as done in
`parsePackageBlock`: `none` when the line has no colon, otherwise the trimmed
key before it and the trimmed remainder after it. -/
def parseLine (line : String) : Option (String × String) :=
  (splitFirstColon line.data).map
    (fun p => (String.mk (jsTrimList p.1), String.mk (jsTrimList p.2)))

/-- Model of `dep.match(/^([^(]+)/)` followed by `.trim()` in
`parseDependencies`: the maximal prefix of characters other than `'('`,
trimmed; when that prefix is empty (the regex does not match) the token is
returned unchanged. -/
def stripConstraint (dep : String) : String :=
  let t := dep.data.takeWhile (fun c => c ≠ '(')
  if t.isEmpty then dep else String.mk (jsTrimList t)

/-- Embedding of `PackageManagerService.parseDependencies`: split on commas,
trim each token, drop empty tokens and tokens equal to `"libc"`, then strip a
parenthesised version constraint, and finally drop tokens that became
empty. -/
def parseDependencies (dependsStr : String) : List String :=
  if dependsStr = "" then []
  else
    ((((jsSplitChar ',' dependsStr).map jsTrim).filter
        (fun dep => dep ≠ "" ∧ dep ≠ "libc")).map stripConstraint).filter
      (fun dep => dep ≠ "")

/-- Dependency parsing in the order the specification states it (split on
commas, strip the parenthesised constraint from each token, then filter the
literal `libc`); used only to compare the spec's wording against
`parseDependencies` as implemented. -/
def parseDependenciesSpec (dependsStr : String) : List String :=
  if dependsStr = "" then []
  else
    ((((jsSplitChar ',' dependsStr).map jsTrim).filter
        (fun dep => dep ≠ "")).map stripConstraint).filter
      (fun dep => dep ≠ "" ∧ dep ≠ "libc")

/-- Normalised package record produced by both parser paths (TS type
`OpenWrtPackage`).  Fields the text parser may leave `undefined` are
`Option`s; `depends` uses `[]` for `undefined` (observationally equivalent in
this code base), and the TS field `section` is `section'` because `section`
is a Lean keyword. -/
structure OpenWrtPackage where
  name : String
  version : String
  depends : List String := []
  license : Option String := none
  section' : Option String := none
  url : Option String := none
  cpeId : Option String := none
  architecture : String
  installedSize : Option Int := none
  filename : String
  size : Option Int := none
  sha256sum : Option String := none
  description : Option String := none
  source : String
deriving DecidableEq, Repr

/-- Accumulator for a single text-format package block
(TS `Partial<OpenWrtPackage>` in `parsePackageBlock`). -/
structure PackageDraft where
  name : Option String := none
  version : Option String := none
  depends : Option (List String) := none
  license : Option String := none
  section' : Option String := none
  url : Option String := none
  cpeId : Option String := none
  architecture : Option String := none
  installedSize : Option Int := none
  filename : Option String := none
  size : Option Int := none
  sha256sum : Option String := none
  description : Option String := none
  source : String
deriving DecidableEq, Repr

/-- One iteration of the per-line `switch` in `parsePackageBlock`. -/
def stepLine (p : PackageDraft) (line : String) : PackageDraft :=
  match parseLine line with
  | none => p
  | some kv =>
    match kv.1 with
    | "Package" => { p with name := some kv.2 }
    | "Version" => { p with version := some kv.2 }
    | "Depends" => { p with depends := some (parseDependencies kv.2) }
    | "License" => { p with license := some kv.2 }
    | "Section" => { p with section' := some kv.2 }
    | "URL" => { p with url := some kv.2 }
    | "CPE-ID" => { p with cpeId := some kv.2 }
    | "Architecture" => { p with architecture := some kv.2 }
    | "Installed-Size" => { p with installedSize := some (jsParseIntOr0 kv.2) }
    | "Filename" => { p with filename := some kv.2 }
    | "Size" => { p with size := some (jsParseIntOr0 kv.2) }
    | "SHA256sum" => { p with sha256sum := some kv.2 }
    | "Description" => { p with description := some kv.2 }
    | _ => p

/-- Embedding of `parsePackageBlock`: fold the per-line dispatch over the
block's lines, then validate the four required fields with JS truthiness
(`!pkg.name || !pkg.version || !pkg.architecture || !pkg.filename`). -/
def parsePackageBlock (block : String) (source : String) : Option OpenWrtPackage :=
  let p := (jsSplitChar '\n' block).foldl stepLine { source := source }
  match p.name, p.version, p.architecture, p.filename with
  | some n, some v, some a, some f =>
    if n = "" ∨ v = "" ∨ a = "" ∨ f = "" then none
    else
      some { name := n, version := v, depends := p.depends.getD [],
             license := p.license, section' := p.section', url := p.url,
             cpeId := p.cpeId, architecture := a,
             installedSize := p.installedSize, filename := f, size := p.size,
             sha256sum := p.sha256sum, description := p.description,
             source := p.source }
  | _, _, _, _ => none

/-- The per-block loop of `parsePackagesFile`, mirroring the `for` loop that
pushes each successfully parsed block's record. -/
def parseBlocksLoop (source : String) : List String → List OpenWrtPackage
  | [] => []
  | b :: bs =>
    match parsePackageBlock b source with
    | some pkg => pkg :: parseBlocksLoop source bs
    | none => parseBlocksLoop source bs

/-- Embedding of `parsePackagesFile`: split the content on blank lines, keep
the blocks with non-whitespace content, and collect the records of the blocks
that parse.  Every operation used by a block parse is total, so the
`try`/`catch` around `parsePackageBlock` in the source has no failing path to
catch; the embedding is accordingly a total function. -/
def parsePackagesFile (content : String) (source : String) : List OpenWrtPackage :=
  parseBlocksLoop source ((jsSplitBlocks content).filter (fun b => jsTrim b ≠ ""))

/-- The effective value a block gives to a field key: the value of the last
line carrying that key (the fold's last write wins). -/
def lastFieldValue (block : String) (key : String) : Option String :=
  ((((jsSplitChar '\n' block).filterMap parseLine).filter
      (fun kv => kv.1 = key)).getLast?).map (fun kv => kv.2)

/-- Raw APK-v3 ADB index entry as delivered by the (external, black-box)
binary decoder and consumed by `mapAdbPackages`.  Every field is optional; a
`null` array slot behaves exactly like an entry whose fields are all absent
(both are skipped by the same guard). -/
structure AdbEntry where
  name : Option String := none
  version : Option String := none
  arch : Option String := none
  fileSize : Option Int := none
  installedSize : Option Int := none
  description : Option String := none
  license : Option String := none
  url : Option String := none
  hashes : Option String := none
  depends : Option (List String) := none
deriving DecidableEq, Repr

/-- JS truthiness of an optional string field: present and non-empty. -/
def truthy : Option String → Bool
  | some s => s ≠ ""
  | none => false

/-- Character class `[<>=~\s]` of the regex in `cleanAdbDependency`:
version-operator characters and whitespace. -/
def isAdbOpChar (c : Char) : Bool :=
  c = '<' || c = '>' || c = '=' || c = '~' || c.isWhitespace

/-- Embedding of `cleanAdbDependency`: strip one leading `'!'`
(`dep.replace(/^!/, '')`), then `match(/^([^<>=~\s]+)/)`: the maximal prefix
free of version-operator characters and whitespace.  When that prefix is
empty the regex does not match and the *original* string (leading `'!'`
included) is returned trimmed. -/
def cleanAdbDependency (dep : String) : String :=
  let stripped :=
    match dep.data with
    | '!' :: t => t
    | l => l
  let t := stripped.takeWhile (fun c => ! isAdbOpChar c)
  if t.isEmpty then jsTrim dep else String.mk (jsTrimList t)

/-- Binary-format dependency cleaning as the specification words it: strip a
leading `'!'` and truncate at the first version-operator or whitespace
character; used only to compare the spec's wording against
`cleanAdbDependency` as implemented. -/
def cleanAdbDependencySpec (dep : String) : String :=
  let stripped :=
    match dep.data with
    | '!' :: t => t
    | l => l
  String.mk (stripped.takeWhile (fun c => ! isAdbOpChar c))

/-- The validity guard of the ADB mapping loop:
`if (!e || !e.name || !e.version || !e.arch) continue`. -/
def adbValid (e : AdbEntry) : Bool :=
  truthy e.name && truthy e.version && truthy e.arch

/-- Conversion of one valid ADB entry into a package record, mirroring the
body of the loop in `mapAdbPackages`: numeric fields default to `0`, section
defaults to the empty string, and the filename is synthesized as
`{name}_{version}_{arch}.apk`. -/
def convAdb (source : String) (e : AdbEntry) : OpenWrtPackage :=
  let name := e.name.getD ""
  let version := e.version.getD ""
  let architecture := e.arch.getD ""
  { name := name, version := version,
    depends := ((e.depends.getD []).map cleanAdbDependency).filter
      (fun d => d ≠ "" ∧ d ≠ "libc"),
    license := e.license, section' := some "", url := e.url,
    cpeId := none, architecture := architecture,
    installedSize := some (e.installedSize.getD 0),
    filename := name ++ "_" ++ version ++ "_" ++ architecture ++ ".apk",
    size := some (e.fileSize.getD 0), sha256sum := some (e.hashes.getD ""),
    description := some (e.description.getD ""), source := source }

/-- Embedding of `mapAdbPackages`: skip entries failing the validity guard,
convert the rest in order. -/
def mapAdbPackages (entries : List AdbEntry) (source : String) : List OpenWrtPackage :=
  match entries with
  | [] => []
  | e :: rest =>
    if adbValid e then convAdb source e :: mapAdbPackages rest source
    else mapAdbPackages rest source

/-- The parts of the global `config` object read by `generateFeedUrls`:
the image-server base URL and the optional list of versions that use the APK
binary index format. -/
structure Config where
  image_url : String
  apk_versions : Option (List String)
deriving DecidableEq, Repr

/-- Kernel metadata triple used for the kernel-module feed. -/
structure KernelInfo where
  version : String
  release : String
  vermagic : String
deriving DecidableEq, Repr

/-- Embedding of `isSnapshot`: the version is `SNAPSHOT` or ends in
`-SNAPSHOT`. -/
def isSnapshot (version : String) : Bool :=
  version = "SNAPSHOT" || "-SNAPSHOT".data.isSuffixOf version.data

/-- Embedding of `isApkVersion`: membership in `config.apk_versions` when that
list is present. -/
def isApkVersion (cfg : Config) (version : String) : Bool :=
  match cfg.apk_versions with
  | some l => version ∈ l
  | none => false

/-- The fixed architecture feed names probed for every device
(`ARCHITECTURE_FEEDS`). -/
def ARCHITECTURE_FEEDS : List String :=
  ["base", "luci", "packages", "telephony"]

/-- Embedding of `generateFeedUrls`: architecture feeds always, the target's
package feed when a target is given, and the kernel-module feed when the
kernel metadata triple is also given. -/
def generateFeedUrls (cfg : Config) (version architecture : String)
    (target : Option String) (kernelInfo : Option KernelInfo) : List String :=
  let baseUrl :=
    if isSnapshot version then cfg.image_url ++ "/snapshots"
    else cfg.image_url ++ "/releases/" ++ version
  let fileName := if isApkVersion cfg version then "packages.adb" else "Packages"
  let archUrl := baseUrl ++ "/packages/" ++ architecture
  let urls := ARCHITECTURE_FEEDS.map (fun feed => archUrl ++ "/" ++ feed ++ "/" ++ fileName)
  match target with
  | none => urls
  | some t =>
    let targetUrl := baseUrl ++ "/targets/" ++ t
    let urls := urls ++ [targetUrl ++ "/packages/" ++ fileName]
    match kernelInfo with
    | none => urls
    | some k =>
      urls ++ [targetUrl ++ "/kmods/" ++ k.version ++ "-" ++ k.release ++ "-" ++
        k.vermagic ++ "/" ++ fileName]

/-- State of the recursive `addDependencies` closure in `getDependencyTree`:
the `visited` name set (a list without duplicates) and the `dependencies`
output array. -/
structure DepState where
  visited : List String
  deps : List String
deriving DecidableEq, Repr

/-- Embedding of the recursive `addDependencies` closure, made total with a
fuel parameter (`none` = fuel exhausted; `getDependencyTree` supplies enough
fuel for this never to happen, see the claim on termination).  The inner
`foldl` mirrors the `for (const dep of pkg.depends)` loop: an unvisited
dependency is pushed onto the output and then recursively expanded. -/
def addDependencies (packages : List OpenWrtPackage) :
    Nat → String → DepState → Option DepState
  | 0, _, _ => none
  | fuel + 1, pkgName, st =>
    if st.visited.contains pkgName then some st
    else
      let st1 : DepState := ⟨pkgName :: st.visited, st.deps⟩
      match packages.find? (fun p => p.name == pkgName) with
      | none => some st1
      | some pkg =>
        pkg.depends.foldl
          (fun acc dep =>
            match acc with
            | none => none
            | some s =>
              if s.visited.contains dep then some s
              else addDependencies packages fuel dep ⟨s.visited, s.deps ++ [dep]⟩)
          (some st1)

/-- The loop body of `addDependencies` as a named function, for stating
lemmas about the fold. -/
def depStep (packages : List OpenWrtPackage) (fuel : Nat) :
    Option DepState → String → Option DepState :=
  fun acc dep =>
    match acc with
    | none => none
    | some s =>
      if s.visited.contains dep then some s
      else addDependencies packages fuel dep ⟨s.visited, s.deps ++ [dep]⟩

/-- Fuel budget that `getDependencyTree` hands to `addDependencies`: more
than the total number of dependency references in the catalog. -/
def depFuel (packages : List OpenWrtPackage) : Nat :=
  (packages.flatMap (fun p => p.depends)).length + 2

/-- Embedding of `getDependencyTree`: run the closure from an empty state and
return the collected dependency list (the fuel-exhaustion branch is proved
unreachable). -/
def getDependencyTree (packageName : String) (packages : List OpenWrtPackage) :
    List String :=
  match addDependencies packages (depFuel packages) packageName ⟨[], []⟩ with
  | some st => st.deps
  | none => []

/-- Custom package repository row of the custom-build store (only the fields
`getSnapshot` reads). -/
structure CustomRepository where
  name : String
  url : String
deriving DecidableEq, Repr

/-- Added/removed package-name arrays provided by the package store's
`getPackageConfiguration` (that store is outside this embedding; the snapshot
passes the object through untouched). -/
structure PackageConfiguration where
  addedPackages : List String
  removedPackages : List String
deriving DecidableEq, Repr

/-- The `CustomBuildSnapshot` shape returned by `getSnapshot`; optional
fields model the `undefined` cases. -/
structure CustomBuildSnapshot where
  packageConfiguration : PackageConfiguration
  uciDefaults : Option String
  rootfsSizeMb : Option Int
  repositories : List CustomRepository
  repositoryKeys : List String
deriving DecidableEq, Repr

/-- The reactive state of the custom-build store that `getSnapshot` reads. -/
structure CustomBuildState where
  uciDefaults : String
  rootfsSizeMb : Option Int
  repositories : List CustomRepository
  repositoryKeys : List String
deriving DecidableEq, Repr

/-- Embedding of the custom-build store's `getSnapshot`: the first-boot
script is kept only when its trim is non-empty, repositories are kept only
when both name and URL trim to something non-empty (and are stored trimmed),
and repository keys are trimmed and the empty ones dropped. -/
def getSnapshot (st : CustomBuildState) (pc : PackageConfiguration) :
    CustomBuildSnapshot :=
  { packageConfiguration := pc,
    uciDefaults := if jsTrim st.uciDefaults ≠ "" then some st.uciDefaults else none,
    rootfsSizeMb := st.rootfsSizeMb,
    repositories :=
      (st.repositories.filter
          (fun r => jsTrim r.name ≠ "" ∧ jsTrim r.url ≠ "")).map
        (fun r => ⟨jsTrim r.name, jsTrim r.url⟩),
    repositoryKeys :=
      (st.repositoryKeys.map jsTrim).filter (fun k => k.length > 0) }

/-- All package names the traversal loop of `getDependencyTree` can ever push
after the initial call: the dependency names occurring in the catalog,
deduplicated. -/
def depUniv (packages : List OpenWrtPackage) : List String :=
  (packages.flatMap (fun p => p.depends)).dedup

/-- Termination measure of the traversal: how many universe names are not
yet in the visited set. -/
def depMeasure (packages : List OpenWrtPackage) (st : DepState) : Nat :=
  ((depUniv packages).toFinset \ st.visited.toFinset).card

lemma parseBlocksLoop_eq_filterMap (source : String) (bs : List String) :
    parseBlocksLoop source bs = bs.filterMap (fun b => parsePackageBlock b source) := by
  induction bs with
  | nil => rfl
  | cons b bs ih =>
    cases h : parsePackageBlock b source <;>
      simp [parseBlocksLoop, List.filterMap_cons, h, ih]

lemma parsePackagesFile_eq (content source : String) :
    parsePackagesFile content source =
      ((jsSplitBlocks content).filter (fun b => jsTrim b ≠ "")).filterMap
        (fun b => parsePackageBlock b source) := by
  unfold parsePackagesFile
  exact parseBlocksLoop_eq_filterMap source _

/-- C5: for every input string the text parse is a total function (nothing in
the per-line processing of the embedding can fail, so the `try`/`catch` of
the source never fires), and the result is exactly the sequence of records of
the blocks that parsed successfully, in block order; every returned record
comes from some block of the input. -/
theorem parsePackagesFile_total_and_tolerant (content source : String) :
    (parsePackagesFile content source =
      ((jsSplitBlocks content).filter (fun b => jsTrim b ≠ "")).filterMap
        (fun b => parsePackageBlock b source)) ∧
    (∀ pkg ∈ parsePackagesFile content source,
      ∃ block ∈ (jsSplitBlocks content).filter (fun b => jsTrim b ≠ ""),
        parsePackageBlock block source = some pkg) := by
  refine ⟨parsePackagesFile_eq content source, ?_⟩
  intro pkg hmem
  rw [parsePackagesFile_eq content source] at hmem
  rcases List.mem_filterMap.mp hmem with ⟨block, hb, hparse⟩
  exact ⟨block, hb, hparse⟩

/-- Witness for `parsePackagesFile_total_and_tolerant`: instantiating the
membership hypothesis at a concrete two-block feed whose first block lacks a
filename. -/
theorem parsePackagesFile_total_and_tolerant_witness :
    ∃ block ∈ (jsSplitBlocks "Package: a\nVersion: 1\nArchitecture: x\n\nPackage: luci\nVersion: 23.05\nArchitecture: mips_24kc\nFilename: luci_23.05_mips_24kc.ipk\n").filter
        (fun b => jsTrim b ≠ ""),
      parsePackageBlock block "feed" =
        some { name := "luci", version := "23.05", architecture := "mips_24kc",
               filename := "luci_23.05_mips_24kc.ipk", source := "feed" } :=
  (parsePackagesFile_total_and_tolerant
      "Package: a\nVersion: 1\nArchitecture: x\n\nPackage: luci\nVersion: 23.05\nArchitecture: mips_24kc\nFilename: luci_23.05_mips_24kc.ipk\n"
      "feed").2
    { name := "luci", version := "23.05", architecture := "mips_24kc",
      filename := "luci_23.05_mips_24kc.ipk", source := "feed" }
    (by decide)

/-- C10: every snapshot of the custom-build store keeps only repositories
whose name and URL are non-empty after trimming and stores them trimmed,
keeps only non-empty trimmed repository keys, and drops the `uciDefaults`
field whenever the stored first-boot script trims to the empty string. -/
theorem getSnapshot_sanitized (st : CustomBuildState) (pc : PackageConfiguration) :
    (∀ r ∈ (getSnapshot st pc).repositories,
      r.name ≠ "" ∧ r.url ≠ "" ∧
        ∃ r₀ ∈ st.repositories, r.name = jsTrim r₀.name ∧ r.url = jsTrim r₀.url) ∧
    (∀ k ∈ (getSnapshot st pc).repositoryKeys,
      k ≠ "" ∧ ∃ k₀ ∈ st.repositoryKeys, k = jsTrim k₀) ∧
    (jsTrim st.uciDefaults = "" → (getSnapshot st pc).uciDefaults = none) := by
  refine ⟨?_, ?_, ?_⟩
  · intro r hr
    simp only [getSnapshot, List.mem_map, List.mem_filter] at hr
    rcases hr with ⟨r₀, ⟨hr₀, hcond⟩, hEq⟩
    rcases of_decide_eq_true hcond with ⟨hn, hu⟩
    subst hEq
    exact ⟨hn, hu, r₀, hr₀, rfl, rfl⟩
  · intro k hk
    simp only [getSnapshot, List.mem_filter, List.mem_map] at hk
    rcases hk with ⟨⟨k₀, hk₀, hEq⟩, hlen⟩
    have hlen' : 0 < k.length := by simpa using of_decide_eq_true hlen
    refine ⟨?_, k₀, hk₀, hEq.symm⟩
    intro hempty
    rw [hempty] at hlen'
    simp at hlen'
  · intro h
    simp [getSnapshot, h]

/-- Witness for `getSnapshot_sanitized` at a concrete store state with a
whitespace-only first-boot script, an incomplete repository row and a blank
repository key. -/
theorem getSnapshot_sanitized_witness :
    (getSnapshot ⟨"  ", some 100, [⟨" a ", " u "⟩, ⟨"", "x"⟩], [" k ", "  "]⟩
        ⟨["p"], []⟩).uciDefaults = none ∧
    ("k" ≠ "" ∧ ∃ k₀ ∈ (⟨"  ", some 100, [⟨" a ", " u "⟩, ⟨"", "x"⟩],
        [" k ", "  "]⟩ : CustomBuildState).repositoryKeys, "k" = jsTrim k₀) :=
  ⟨(getSnapshot_sanitized ⟨"  ", some 100, [⟨" a ", " u "⟩, ⟨"", "x"⟩], [" k ", "  "]⟩
      ⟨["p"], []⟩).2.2 (by decide),
   (getSnapshot_sanitized ⟨"  ", some 100, [⟨" a ", " u "⟩, ⟨"", "x"⟩], [" k ", "  "]⟩
      ⟨["p"], []⟩).2.1 "k" (by decide)⟩

lemma stepLine_name (p : PackageDraft) (line : String) :
    (stepLine p line).name =
      match parseLine line with
      | some kv => if kv.1 = "Package" then some kv.2 else p.name
      | none => p.name := by
  cases h : parseLine line <;> simp only [stepLine, h]
  split <;> simp_all

lemma stepLine_version (p : PackageDraft) (line : String) :
    (stepLine p line).version =
      match parseLine line with
      | some kv => if kv.1 = "Version" then some kv.2 else p.version
      | none => p.version := by
  cases h : parseLine line <;> simp only [stepLine, h]
  split <;> simp_all

lemma stepLine_architecture (p : PackageDraft) (line : String) :
    (stepLine p line).architecture =
      match parseLine line with
      | some kv => if kv.1 = "Architecture" then some kv.2 else p.architecture
      | none => p.architecture := by
  cases h : parseLine line <;> simp only [stepLine, h]
  split <;> simp_all

lemma stepLine_filename (p : PackageDraft) (line : String) :
    (stepLine p line).filename =
      match parseLine line with
      | some kv => if kv.1 = "Filename" then some kv.2 else p.filename
      | none => p.filename := by
  cases h : parseLine line <;> simp only [stepLine, h]
  split <;> simp_all

lemma stepLine_size (p : PackageDraft) (line : String) :
    (stepLine p line).size =
      match parseLine line with
      | some kv => if kv.1 = "Size" then some (jsParseIntOr0 kv.2) else p.size
      | none => p.size := by
  cases h : parseLine line <;> simp only [stepLine, h]
  split <;> simp_all

lemma stepLine_installedSize (p : PackageDraft) (line : String) :
    (stepLine p line).installedSize =
      match parseLine line with
      | some kv =>
        if kv.1 = "Installed-Size" then some (jsParseIntOr0 kv.2) else p.installedSize
      | none => p.installedSize := by
  cases h : parseLine line <;> simp only [stepLine, h]
  split <;> simp_all

lemma foldl_stepLine_name (ls : List String) (p : PackageDraft) :
    (ls.foldl stepLine p).name =
      (((ls.filterMap parseLine).filter (fun kv => kv.1 = "Package")).getLast?).elim
        p.name (fun kv => some kv.2) := by
  induction ls using List.reverseRecOn generalizing p with
  | nil => simp
  | append_singleton ls x ih =>
    rw [List.foldl_append]
    simp only [List.foldl_cons, List.foldl_nil]
    rw [stepLine_name]
    cases h : parseLine x with
    | none => simp [List.filterMap_append, h, ih]
    | some kv =>
      by_cases hk : kv.1 = "Package"
      · simp [List.filterMap_append, List.filter_append, h, hk, ih]
      · simp [List.filterMap_append, List.filter_append, h, hk, ih]

lemma foldl_stepLine_version (ls : List String) (p : PackageDraft) :
    (ls.foldl stepLine p).version =
      (((ls.filterMap parseLine).filter (fun kv => kv.1 = "Version")).getLast?).elim
        p.version (fun kv => some kv.2) := by
  induction ls using List.reverseRecOn generalizing p with
  | nil => simp
  | append_singleton ls x ih =>
    rw [List.foldl_append]
    simp only [List.foldl_cons, List.foldl_nil]
    rw [stepLine_version]
    cases h : parseLine x with
    | none => simp [List.filterMap_append, h, ih]
    | some kv =>
      by_cases hk : kv.1 = "Version"
      · simp [List.filterMap_append, List.filter_append, h, hk, ih]
      · simp [List.filterMap_append, List.filter_append, h, hk, ih]

lemma foldl_stepLine_architecture (ls : List String) (p : PackageDraft) :
    (ls.foldl stepLine p).architecture =
      (((ls.filterMap parseLine).filter
          (fun kv => kv.1 = "Architecture")).getLast?).elim
        p.architecture (fun kv => some kv.2) := by
  induction ls using List.reverseRecOn generalizing p with
  | nil => simp
  | append_singleton ls x ih =>
    rw [List.foldl_append]
    simp only [List.foldl_cons, List.foldl_nil]
    rw [stepLine_architecture]
    cases h : parseLine x with
    | none => simp [List.filterMap_append, h, ih]
    | some kv =>
      by_cases hk : kv.1 = "Architecture"
      · simp [List.filterMap_append, List.filter_append, h, hk, ih]
      · simp [List.filterMap_append, List.filter_append, h, hk, ih]

lemma foldl_stepLine_filename (ls : List String) (p : PackageDraft) :
    (ls.foldl stepLine p).filename =
      (((ls.filterMap parseLine).filter (fun kv => kv.1 = "Filename")).getLast?).elim
        p.filename (fun kv => some kv.2) := by
  induction ls using List.reverseRecOn generalizing p with
  | nil => simp
  | append_singleton ls x ih =>
    rw [List.foldl_append]
    simp only [List.foldl_cons, List.foldl_nil]
    rw [stepLine_filename]
    cases h : parseLine x with
    | none => simp [List.filterMap_append, h, ih]
    | some kv =>
      by_cases hk : kv.1 = "Filename"
      · simp [List.filterMap_append, List.filter_append, h, hk, ih]
      · simp [List.filterMap_append, List.filter_append, h, hk, ih]

lemma foldl_stepLine_size (ls : List String) (p : PackageDraft) :
    (ls.foldl stepLine p).size =
      (((ls.filterMap parseLine).filter (fun kv => kv.1 = "Size")).getLast?).elim
        p.size (fun kv => some (jsParseIntOr0 kv.2)) := by
  induction ls using List.reverseRecOn generalizing p with
  | nil => simp
  | append_singleton ls x ih =>
    rw [List.foldl_append]
    simp only [List.foldl_cons, List.foldl_nil]
    rw [stepLine_size]
    cases h : parseLine x with
    | none => simp [List.filterMap_append, h, ih]
    | some kv =>
      by_cases hk : kv.1 = "Size"
      · simp [List.filterMap_append, List.filter_append, h, hk, ih]
      · simp [List.filterMap_append, List.filter_append, h, hk, ih]

lemma foldl_stepLine_installedSize (ls : List String) (p : PackageDraft) :
    (ls.foldl stepLine p).installedSize =
      (((ls.filterMap parseLine).filter
          (fun kv => kv.1 = "Installed-Size")).getLast?).elim
        p.installedSize (fun kv => some (jsParseIntOr0 kv.2)) := by
  induction ls using List.reverseRecOn generalizing p with
  | nil => simp
  | append_singleton ls x ih =>
    rw [List.foldl_append]
    simp only [List.foldl_cons, List.foldl_nil]
    rw [stepLine_installedSize]
    cases h : parseLine x with
    | none => simp [List.filterMap_append, h, ih]
    | some kv =>
      by_cases hk : kv.1 = "Installed-Size"
      · simp [List.filterMap_append, List.filter_append, h, hk, ih]
      · simp [List.filterMap_append, List.filter_append, h, hk, ih]

lemma parseDraft_name (block source : String) :
    ((jsSplitChar '\n' block).foldl stepLine { source := source } : PackageDraft).name =
      lastFieldValue block "Package" := by
  rw [foldl_stepLine_name]
  cases h : (((jsSplitChar '\n' block).filterMap parseLine).filter
      (fun kv => kv.1 = "Package")).getLast? <;>
    simp [lastFieldValue, h]

lemma parseDraft_version (block source : String) :
    ((jsSplitChar '\n' block).foldl stepLine { source := source } : PackageDraft).version =
      lastFieldValue block "Version" := by
  rw [foldl_stepLine_version]
  cases h : (((jsSplitChar '\n' block).filterMap parseLine).filter
      (fun kv => kv.1 = "Version")).getLast? <;>
    simp [lastFieldValue, h]

lemma parseDraft_architecture (block source : String) :
    ((jsSplitChar '\n' block).foldl stepLine
        { source := source } : PackageDraft).architecture =
      lastFieldValue block "Architecture" := by
  rw [foldl_stepLine_architecture]
  cases h : (((jsSplitChar '\n' block).filterMap parseLine).filter
      (fun kv => kv.1 = "Architecture")).getLast? <;>
    simp [lastFieldValue, h]

lemma parseDraft_filename (block source : String) :
    ((jsSplitChar '\n' block).foldl stepLine { source := source } : PackageDraft).filename =
      lastFieldValue block "Filename" := by
  rw [foldl_stepLine_filename]
  cases h : (((jsSplitChar '\n' block).filterMap parseLine).filter
      (fun kv => kv.1 = "Filename")).getLast? <;>
    simp [lastFieldValue, h]

/-- C1: a text-format block yields a record exactly when its effective
`Package`, `Version`, `Architecture` and `Filename` field values (last
occurrence wins) are present and non-empty; the concrete `luci` block parses
to exactly the expected record, and a feed whose first block lacks a
`Filename` drops that block without error and keeps parsing the remaining
blocks. -/
theorem parsePackageBlock_required_fields :
    (∀ block source : String,
      (parsePackageBlock block source).isSome ↔
        ((∃ v, lastFieldValue block "Package" = some v ∧ v ≠ "") ∧
         (∃ v, lastFieldValue block "Version" = some v ∧ v ≠ "") ∧
         (∃ v, lastFieldValue block "Architecture" = some v ∧ v ≠ "") ∧
         (∃ v, lastFieldValue block "Filename" = some v ∧ v ≠ ""))) ∧
    (∀ source : String,
      parsePackagesFile
          "Package: luci\nVersion: 23.05\nArchitecture: mips_24kc\nFilename: luci_23.05_mips_24kc.ipk\n"
          source =
        [{ name := "luci", version := "23.05", architecture := "mips_24kc",
           filename := "luci_23.05_mips_24kc.ipk", source := source }]) ∧
    (∀ source : String,
      parsePackagesFile
          "Package: a\nVersion: 1\nArchitecture: x\n\nPackage: luci\nVersion: 23.05\nArchitecture: mips_24kc\nFilename: luci_23.05_mips_24kc.ipk\n"
          source =
        [{ name := "luci", version := "23.05", architecture := "mips_24kc",
           filename := "luci_23.05_mips_24kc.ipk", source := source }]) := by
  refine ⟨?_, fun source => rfl, fun source => rfl⟩
  intro block source
  have hn := parseDraft_name block source
  have hv := parseDraft_version block source
  have ha := parseDraft_architecture block source
  have hf := parseDraft_filename block source
  simp only [parsePackageBlock]
  rw [hn, hv, ha, hf]
  rcases hP : lastFieldValue block "Package" with _ | vP <;>
    rcases hV : lastFieldValue block "Version" with _ | vV <;>
      rcases hA : lastFieldValue block "Architecture" with _ | vA <;>
        rcases hF : lastFieldValue block "Filename" with _ | vF <;>
          simp_all

/-- Witness for `parsePackageBlock_required_fields`: the `luci` block
satisfies the four-field condition, so the parse returns a record. -/
theorem parsePackageBlock_required_fields_witness :
    (parsePackageBlock
        "Package: luci\nVersion: 23.05\nArchitecture: mips_24kc\nFilename: luci_23.05_mips_24kc.ipk\n"
        "feed").isSome :=
  (parsePackageBlock_required_fields.1
      "Package: luci\nVersion: 23.05\nArchitecture: mips_24kc\nFilename: luci_23.05_mips_24kc.ipk\n"
      "feed").mpr
    ⟨⟨"luci", by decide, by decide⟩, ⟨"23.05", by decide, by decide⟩,
     ⟨"mips_24kc", by decide, by decide⟩,
     ⟨"luci_23.05_mips_24kc.ipk", by decide, by decide⟩⟩

lemma mapAdbPackages_eq (entries : List AdbEntry) (source : String) :
    mapAdbPackages entries source = (entries.filter adbValid).map (convAdb source) := by
  induction entries with
  | nil => rfl
  | cons e rest ih =>
    by_cases h : adbValid e <;> simp [mapAdbPackages, List.filter_cons, h, ih]

lemma jsTrimList_eq_self {cs : List Char} (h : ∀ c ∈ cs, ¬ c.isWhitespace) :
    jsTrimList cs = cs := by
  unfold jsTrimList
  have h1 : cs.dropWhile Char.isWhitespace = cs := by
    cases cs with
    | nil => rfl
    | cons c rest =>
      rw [List.dropWhile_cons]
      simp [h c (by simp)]
  rw [h1]
  have h2 : cs.reverse.dropWhile Char.isWhitespace = cs.reverse := by
    cases hr : cs.reverse with
    | nil => rfl
    | cons c rest =>
      rw [List.dropWhile_cons]
      have hc : c ∈ cs := by
        rw [← List.mem_reverse, hr]
        simp
      simp [h c hc]
  rw [h2, List.reverse_reverse]

/-- C2 counterexample: the spec's stated order (strip the parenthesised
constraint, then filter `libc`) disagrees with the code on the token
`"libc (>= 1.0)"`: the implementation keeps `"libc"`, the spec-ordered
pipeline drops it. -/
theorem parseDependencies_order_counterexample :
    parseDependencies "libc (>= 1.0)" = ["libc"] ∧
    parseDependenciesSpec "libc (>= 1.0)" = [] := by decide

/-- C2 amended: `parseDependencies` splits on commas and trims each token,
applies the `libc` filter to the *raw* trimmed token before constraint
stripping, then strips the parenthesised constraint and drops empties; the
concrete example `"libfoo (>= 1.2.0), libc"` still yields `["libfoo"]`. -/
theorem parseDependencies_amended :
    (∀ s d : String, d ∈ parseDependencies s →
      d ≠ "" ∧ ∃ tok ∈ (jsSplitChar ',' s).map jsTrim,
        tok ≠ "libc" ∧ tok ≠ "" ∧ d = stripConstraint tok) ∧
    parseDependencies "libfoo (>= 1.2.0), libc" = ["libfoo"] := by
  constructor
  · intro s d hd
    unfold parseDependencies at hd
    split at hd
    · simp at hd
    · rcases List.mem_filter.mp hd with ⟨hd1, hne⟩
      rcases List.mem_map.mp hd1 with ⟨tok, htok, hEq⟩
      rcases List.mem_filter.mp htok with ⟨htok1, hcond⟩
      have hcond' := of_decide_eq_true hcond
      exact ⟨of_decide_eq_true hne, tok, htok1, hcond'.2, hcond'.1, hEq.symm⟩
  · decide

/-- Witness for `parseDependencies_amended` at the dependency string
`"libbar (>= 2.0)"` and its parsed dependency `"libbar"`. -/
theorem parseDependencies_amended_witness :
    ("libbar" : String) ≠ "" ∧
    ∃ tok ∈ (jsSplitChar ',' "libbar (>= 2.0)").map jsTrim,
      tok ≠ "libc" ∧ tok ≠ "" ∧ "libbar" = stripConstraint tok :=
  parseDependencies_amended.1 "libbar (>= 2.0)" "libbar" (by decide)

/-- C9: the `libc` filter of the text parser runs on the raw comma token
before the version constraint is stripped, so a `Depends` value containing
the token `"libc (>= 1.0)"` keeps `"libc"` in the resulting list. -/
theorem parseDependencies_libc_prestrip :
    parseDependencies "libfoo, libc (>= 1.0)" = ["libfoo", "libc"] ∧
    "libc" ∈ parseDependencies "libfoo, libc (>= 1.0)" := by decide

/-- C4 counterexample: on the dependency string `"~1.0"` the spec's
description (strip `'!'`, truncate at the first operator/whitespace
character) yields `""`, but `cleanAdbDependency` returns the whole string
unchanged because the regex `^([^<>=~\s]+)` fails to match. -/
theorem cleanAdbDependency_spec_counterexample :
    cleanAdbDependencySpec "~1.0" = "" ∧
    cleanAdbDependency "~1.0" = "~1.0" ∧
    ("~1.0" : String) ≠ "" := by decide

/-- C4 amended: when the string left after stripping a leading `'!'` starts
with a non-operator character, cleaning truncates exactly as the spec says
(and `"!bar"` cleans to `"bar"`, `"baz>=2.0"` to `"baz"`); when it starts
with an operator or whitespace character the original string is returned
trimmed (leading `'!'` included); the literal `libc` is filtered from every
binary-path depends list. -/
theorem cleanAdbDependency_amended :
    cleanAdbDependency "!bar" = "bar" ∧
    cleanAdbDependency "baz>=2.0" = "baz" ∧
    (∀ dep : String, cleanAdbDependencySpec dep ≠ "" →
      cleanAdbDependency dep = cleanAdbDependencySpec dep) ∧
    (∀ dep : String, cleanAdbDependencySpec dep = "" →
      cleanAdbDependency dep = jsTrim dep) ∧
    (∀ (entries : List AdbEntry) (source : String),
      ∀ pkg ∈ mapAdbPackages entries source, "libc" ∉ pkg.depends) := by
  refine ⟨by decide, by decide, ?_, ?_, ?_⟩
  · intro dep hne
    unfold cleanAdbDependency cleanAdbDependencySpec at *
    set stripped := (match dep.data with | '!' :: t => t | l => l) with hs
    set t := stripped.takeWhile (fun c => ! isAdbOpChar c) with ht
    have htne : ¬ t.isEmpty := by
      intro habs
      apply hne
      rw [List.isEmpty_iff] at habs
      simp only [← ht, habs]
    rw [if_neg htne]
    have htrim : jsTrimList t = t := by
      apply jsTrimList_eq_self
      intro c hc
      have hp := List.mem_takeWhile_imp hc
      intro hws
      simp [isAdbOpChar, hws] at hp
    rw [htrim]
  · intro dep hempty
    unfold cleanAdbDependency cleanAdbDependencySpec at *
    set stripped := (match dep.data with | '!' :: t => t | l => l) with hs
    set t := stripped.takeWhile (fun c => ! isAdbOpChar c) with ht
    have htempty : t.isEmpty := by
      rw [List.isEmpty_iff]
      have := congrArg String.data hempty
      simpa [← ht] using this
    rw [if_pos htempty]
  · intro entries source pkg hmem
    rw [mapAdbPackages_eq] at hmem
    rcases List.mem_map.mp hmem with ⟨e, _, rfl⟩
    intro habs
    rcases List.mem_filter.mp habs with ⟨_, hcond⟩
    simp at hcond

/-- Witness for `cleanAdbDependency_amended`: the two dichotomy branches at
`"libfoo"` and `"~1.0"`, and the `libc` filter on a concrete binary entry
whose depends list mentions `libc`. -/
theorem cleanAdbDependency_amended_witness :
    cleanAdbDependency "libfoo" = cleanAdbDependencySpec "libfoo" ∧
    cleanAdbDependency "~1.0" = jsTrim "~1.0" ∧
    "libc" ∉ (convAdb "s"
        ⟨some "a", some "1", some "x", none, none, none, none, none, none,
          some ["libc", "b"]⟩).depends :=
  ⟨cleanAdbDependency_amended.2.2.1 "libfoo" (by decide),
   cleanAdbDependency_amended.2.2.2.1 "~1.0" (by decide),
   cleanAdbDependency_amended.2.2.2.2
     [⟨some "a", some "1", some "x", none, none, none, none, none, none,
        some ["libc", "b"]⟩] "s"
     (convAdb "s"
       ⟨some "a", some "1", some "x", none, none, none, none, none, none,
         some ["libc", "b"]⟩)
     (by decide)⟩

/-- C3: the binary (ADB) mapping keeps exactly the entries whose `name`,
`version` and `arch` are present and non-empty; every retained record gets
the empty section and the synthesized filename
`{name}_{version}_{arch}.apk` (so a missing filename never rejects a binary
entry), whereas the text path rejects a block that has name, version and
architecture but no filename. -/
theorem mapAdbPackages_validation_and_synthesis :
    (∀ (entries : List AdbEntry) (source : String),
      mapAdbPackages entries source = (entries.filter adbValid).map (convAdb source)) ∧
    (∀ (entries : List AdbEntry) (source : String),
      ∀ pkg ∈ mapAdbPackages entries source,
        pkg.section' = some "" ∧
        pkg.filename =
          pkg.name ++ "_" ++ pkg.version ++ "_" ++ pkg.architecture ++ ".apk") ∧
    parsePackageBlock "Package: a\nVersion: 1\nArchitecture: x\n" "s" = none := by
  refine ⟨mapAdbPackages_eq, ?_, by decide⟩
  intro entries source pkg hmem
  rw [mapAdbPackages_eq] at hmem
  rcases List.mem_map.mp hmem with ⟨e, _, rfl⟩
  exact ⟨rfl, rfl⟩

/-- Witness for `mapAdbPackages_validation_and_synthesis` at a concrete valid
binary entry. -/
theorem mapAdbPackages_validation_witness :
    (convAdb "s"
        ⟨some "a", some "1.0", some "mips", none, none, none, none, none, none,
          none⟩).section' = some "" ∧
    (convAdb "s"
        ⟨some "a", some "1.0", some "mips", none, none, none, none, none, none,
          none⟩).filename =
      (convAdb "s"
          ⟨some "a", some "1.0", some "mips", none, none, none, none, none, none,
            none⟩).name ++ "_" ++
        (convAdb "s"
            ⟨some "a", some "1.0", some "mips", none, none, none, none, none, none,
              none⟩).version ++ "_" ++
          (convAdb "s"
              ⟨some "a", some "1.0", some "mips", none, none, none, none, none, none,
                none⟩).architecture ++ ".apk" :=
  mapAdbPackages_validation_and_synthesis.2.1
    [⟨some "a", some "1.0", some "mips", none, none, none, none, none, none, none⟩]
    "s"
    (convAdb "s"
      ⟨some "a", some "1.0", some "mips", none, none, none, none, none, none, none⟩)
    (by decide)

/-- C7: every generated feed URL starts with the snapshot or release prefix
chosen by `isSnapshot`; the four architecture feeds `base`, `luci`,
`packages`, `telephony` are always emitted (and nothing else when no target
is given); a target adds the target's own package feed, and kernel metadata
additionally adds the kernel-module feed keyed by the
version-release-vermagic triple. -/
theorem generateFeedUrls_shape (cfg : Config) (version architecture : String)
    (target : Option String) (kernelInfo : Option KernelInfo) :
    (∀ u ∈ generateFeedUrls cfg version architecture target kernelInfo,
      ∃ rest, u =
        (if isSnapshot version then cfg.image_url ++ "/snapshots"
         else cfg.image_url ++ "/releases/" ++ version) ++ rest) ∧
    (∀ feed ∈ ARCHITECTURE_FEEDS,
      ((if isSnapshot version then cfg.image_url ++ "/snapshots"
        else cfg.image_url ++ "/releases/" ++ version) ++ "/packages/" ++
          architecture ++ "/" ++ feed ++ "/" ++
          (if isApkVersion cfg version then "packages.adb" else "Packages")) ∈
        generateFeedUrls cfg version architecture target kernelInfo) ∧
    (target = none →
      (generateFeedUrls cfg version architecture target kernelInfo).length = 4) ∧
    (∀ t, target = some t →
      ((if isSnapshot version then cfg.image_url ++ "/snapshots"
        else cfg.image_url ++ "/releases/" ++ version) ++ "/targets/" ++ t ++
          "/packages/" ++
          (if isApkVersion cfg version then "packages.adb" else "Packages")) ∈
        generateFeedUrls cfg version architecture target kernelInfo) ∧
    (∀ t k, target = some t → kernelInfo = some k →
      ((if isSnapshot version then cfg.image_url ++ "/snapshots"
        else cfg.image_url ++ "/releases/" ++ version) ++ "/targets/" ++ t ++
          "/kmods/" ++ k.version ++ "-" ++ k.release ++ "-" ++ k.vermagic ++ "/" ++
          (if isApkVersion cfg version then "packages.adb" else "Packages")) ∈
        generateFeedUrls cfg version architecture target kernelInfo) := by
  refine ⟨?_, ?_, ?_, ?_, ?_⟩
  · intro u hu
    rcases target with _ | t
    · simp only [generateFeedUrls, ARCHITECTURE_FEEDS, List.map_cons, List.map_nil,
        List.mem_cons, List.not_mem_nil, or_false] at hu
      rcases hu with rfl | rfl | rfl | rfl <;>
        (simp only [String.append_assoc]; exact ⟨_, rfl⟩)
    · rcases kernelInfo with _ | k
      · simp only [generateFeedUrls, ARCHITECTURE_FEEDS, List.map_cons, List.map_nil,
          List.mem_append, List.mem_cons, List.not_mem_nil, or_false] at hu
        rcases hu with (rfl | rfl | rfl | rfl) | rfl <;>
          (simp only [String.append_assoc]; exact ⟨_, rfl⟩)
      · simp only [generateFeedUrls, ARCHITECTURE_FEEDS, List.map_cons, List.map_nil,
          List.mem_append, List.mem_cons, List.not_mem_nil, or_false] at hu
        rcases hu with ((rfl | rfl | rfl | rfl) | rfl) | rfl <;>
          (simp only [String.append_assoc]; exact ⟨_, rfl⟩)
  · intro feed hfeed
    simp only [ARCHITECTURE_FEEDS, List.mem_cons, List.not_mem_nil, or_false] at hfeed
    rcases target with _ | t <;> rcases kernelInfo with _ | k <;>
      rcases hfeed with rfl | rfl | rfl | rfl <;>
      first
        | exact List.Mem.head _
        | exact List.Mem.tail _ (List.Mem.head _)
        | exact List.Mem.tail _ (List.Mem.tail _ (List.Mem.head _))
        | exact List.Mem.tail _ (List.Mem.tail _ (List.Mem.tail _ (List.Mem.head _)))
  · intro h
    subst h
    rcases kernelInfo with _ | k <;> rfl
  · intro t ht
    subst ht
    rcases kernelInfo with _ | k <;>
      exact List.Mem.tail _ (List.Mem.tail _ (List.Mem.tail _ (List.Mem.tail _
        (List.Mem.head _))))
  · intro t k ht hk
    subst ht
    subst hk
    exact List.Mem.tail _ (List.Mem.tail _ (List.Mem.tail _ (List.Mem.tail _
      (List.Mem.tail _ (List.Mem.head _)))))

/-- Witness for `generateFeedUrls_shape` at a concrete release version with a
target and kernel metadata: the `luci` architecture feed and the
kernel-module feed are both emitted. -/
theorem generateFeedUrls_shape_witness :
    ("https://img/releases/23.05.0/packages/mips/luci/Packages" : String) ∈
      generateFeedUrls ⟨"https://img", none⟩ "23.05.0" "mips"
        (some "ath79/generic") (some ⟨"6.6", "1", "abc"⟩) ∧
    ("https://img/releases/23.05.0/targets/ath79/generic/kmods/6.6-1-abc/Packages" : String) ∈
      generateFeedUrls ⟨"https://img", none⟩ "23.05.0" "mips"
        (some "ath79/generic") (some ⟨"6.6", "1", "abc"⟩) := by
  constructor
  · have h := (generateFeedUrls_shape ⟨"https://img", none⟩ "23.05.0" "mips"
      (some "ath79/generic") (some ⟨"6.6", "1", "abc"⟩)).2.1 "luci" (by decide)
    have heq :
        (if isSnapshot "23.05.0" then ("https://img" : String) ++ "/snapshots"
          else ("https://img" : String) ++ "/releases/" ++ "23.05.0") ++ "/packages/" ++
            "mips" ++ "/" ++ "luci" ++ "/" ++
            (if isApkVersion ⟨"https://img", none⟩ "23.05.0" then "packages.adb"
             else "Packages") =
          "https://img/releases/23.05.0/packages/mips/luci/Packages" := by decide
    exact heq ▸ h
  · have h := (generateFeedUrls_shape ⟨"https://img", none⟩ "23.05.0" "mips"
      (some "ath79/generic") (some ⟨"6.6", "1", "abc"⟩)).2.2.2.2 "ath79/generic"
      ⟨"6.6", "1", "abc"⟩ rfl rfl
    have heq :
        (if isSnapshot "23.05.0" then ("https://img" : String) ++ "/snapshots"
          else ("https://img" : String) ++ "/releases/" ++ "23.05.0") ++ "/targets/" ++
            "ath79/generic" ++ "/kmods/" ++ "6.6" ++ "-" ++ "1" ++ "-" ++ "abc" ++ "/" ++
            (if isApkVersion ⟨"https://img", none⟩ "23.05.0" then "packages.adb"
             else "Packages") =
          "https://img/releases/23.05.0/targets/ath79/generic/kmods/6.6-1-abc/Packages" := by
      decide
    exact heq ▸ h

lemma parsePackageBlock_some_sizes (block source : String) (pkg : OpenWrtPackage)
    (h : parsePackageBlock block source = some pkg) :
    pkg.size =
      ((jsSplitChar '\n' block).foldl stepLine { source := source } : PackageDraft).size ∧
    pkg.installedSize =
      ((jsSplitChar '\n' block).foldl stepLine
        { source := source } : PackageDraft).installedSize := by
  simp only [parsePackageBlock] at h
  split at h
  · split at h
    · exact absurd h (by simp)
    · have hpkg := Option.some.inj h
      subst hpkg
      exact ⟨rfl, rfl⟩
  · exact absurd h (by simp)

/-- C8 counterexample: a `Size`/`Installed-Size` value carrying a negative
integer is parsed and carried through unchanged, so record sizes are not
unconditionally at least 0. -/
theorem package_sizes_counterexample :
    (parsePackageBlock
        "Package: a\nVersion: 1\nArchitecture: x\nFilename: f\nSize: -7\nInstalled-Size: -3"
        "s").map (fun p => (p.size, p.installedSize)) = some (some (-7), some (-3)) ∧
    ¬ (0 : Int) ≤ -7 := by decide

/-- C8 amended: in the text path a record's size fields, when set, are
exactly the JS `parseInt`-with-0-default of the last corresponding field
value (so unparsable values give 0 and values with a numeric prefix give that
prefix), hence sizes are at least 0 whenever the feed supplies no negative
value; in the binary path absent numeric fields default to 0 and sizes are at
least 0 whenever the decoded numeric fields are nonnegative. -/
theorem package_sizes_amended :
    (∀ (block source : String) (pkg : OpenWrtPackage),
      parsePackageBlock block source = some pkg →
      (∀ n, pkg.size = some n →
        ∃ v, lastFieldValue block "Size" = some v ∧ n = jsParseIntOr0 v) ∧
      (∀ n, pkg.installedSize = some n →
        ∃ v, lastFieldValue block "Installed-Size" = some v ∧ n = jsParseIntOr0 v)) ∧
    (∀ (entries : List AdbEntry) (source : String),
      ∀ pkg ∈ mapAdbPackages entries source,
      (∀ e ∈ entries, (∀ n, e.fileSize = some n → 0 ≤ n) ∧
        (∀ n, e.installedSize = some n → 0 ≤ n)) →
      (∀ n, pkg.size = some n → 0 ≤ n) ∧
      (∀ n, pkg.installedSize = some n → 0 ≤ n)) ∧
    ((parsePackageBlock
        "Package: a\nVersion: 1\nArchitecture: x\nFilename: f\nSize: 12kb\nInstalled-Size: oops"
        "s").map (fun p => (p.size, p.installedSize)) = some (some 12, some 0)) := by
  refine ⟨?_, ?_, by decide⟩
  · intro block source pkg h
    obtain ⟨hs, hi⟩ := parsePackageBlock_some_sizes block source pkg h
    constructor
    · intro n hn
      rw [hs, foldl_stepLine_size] at hn
      rcases hlast : (((jsSplitChar '\n' block).filterMap parseLine).filter
          (fun kv => kv.1 = "Size")).getLast? with _ | kv
      · rw [hlast] at hn
        simp at hn
      · rw [hlast] at hn
        have := Option.some.inj hn
        exact ⟨kv.2, by simp [lastFieldValue, hlast], this.symm⟩
    · intro n hn
      rw [hi, foldl_stepLine_installedSize] at hn
      rcases hlast : (((jsSplitChar '\n' block).filterMap parseLine).filter
          (fun kv => kv.1 = "Installed-Size")).getLast? with _ | kv
      · rw [hlast] at hn
        simp at hn
      · rw [hlast] at hn
        have := Option.some.inj hn
        exact ⟨kv.2, by simp [lastFieldValue, hlast], this.symm⟩
  · intro entries source pkg hmem hnn
    rw [mapAdbPackages_eq] at hmem
    rcases List.mem_map.mp hmem with ⟨e, he, rfl⟩
    have he' := hnn e (List.mem_filter.mp he).1
    constructor
    · intro n hn
      have hn' : (some (e.fileSize.getD 0) : Option Int) = some n := hn
      have := Option.some.inj hn'
      subst this
      rcases hf : e.fileSize with _ | m
      · simp [hf]
      · simpa [hf] using he'.1 m hf
    · intro n hn
      have hn' : (some (e.installedSize.getD 0) : Option Int) = some n := hn
      have := Option.some.inj hn'
      subst this
      rcases hf : e.installedSize with _ | m
      · simp [hf]
      · simpa [hf] using he'.2 m hf

/-- Witness for `package_sizes_amended`: a concrete text block with
`Size: 21` and a concrete binary entry with nonnegative sizes. -/
theorem package_sizes_amended_witness :
    (∃ v, lastFieldValue "Package: a\nVersion: 1\nArchitecture: x\nFilename: f\nSize: 21"
        "Size" = some v ∧ (21 : Int) = jsParseIntOr0 v) ∧
    (0 : Int) ≤ 5 := by
  constructor
  · exact (package_sizes_amended.1
      "Package: a\nVersion: 1\nArchitecture: x\nFilename: f\nSize: 21" "s"
      { name := "a", version := "1", architecture := "x", filename := "f",
        size := some 21, source := "s" }
      (by decide)).1 21 rfl
  · exact ((package_sizes_amended.2.1
      [⟨some "a", some "1", some "x", some 5, some 4, none, none, none, none, none⟩] "s"
      (convAdb "s"
        ⟨some "a", some "1", some "x", some 5, some 4, none, none, none, none, none⟩)
      (by decide)
      (fun e he => by
        simp only [List.mem_singleton] at he
        subst he
        constructor <;> (intro n h; cases Option.some.inj h; decide))).1) 5 rfl


lemma addDependencies_succ (P : List OpenWrtPackage) (f : Nat) (n : String)
    (st : DepState) :
    addDependencies P (f + 1) n st =
      if st.visited.contains n then some st
      else
        match P.find? (fun p => p.name == n) with
        | none => some ⟨n :: st.visited, st.deps⟩
        | some pkg =>
          pkg.depends.foldl (depStep P f) (some ⟨n :: st.visited, st.deps⟩) := rfl

lemma foldl_depStep_none (P : List OpenWrtPackage) (f : Nat) (ds : List String) :
    ds.foldl (depStep P f) none = none := by
  induction ds with
  | nil => rfl
  | cons d ds ih => simpa [depStep] using ih

lemma depLoopMono_aux (P : List OpenWrtPackage) (f : Nat)
    (IH : ∀ n st st', addDependencies P f n st = some st' →
      ∀ x, x ∈ st.visited → x ∈ st'.visited) :
    ∀ (ds : List String) (s₀ st' : DepState),
      ds.foldl (depStep P f) (some s₀) = some st' →
      ∀ x, x ∈ s₀.visited → x ∈ st'.visited := by
  intro ds
  induction ds with
  | nil =>
    intro s₀ st' h x hx
    cases Option.some.inj h
    exact hx
  | cons d ds ihds =>
    intro s₀ st' h x hx
    rw [List.foldl_cons] at h
    by_cases hd : s₀.visited.contains d
    · rw [show depStep P f (some s₀) d = some s₀ from by
        simp only [depStep]; rw [if_pos hd]] at h
      exact ihds s₀ st' h x hx
    · rw [show depStep P f (some s₀) d =
          addDependencies P f d ⟨s₀.visited, s₀.deps ++ [d]⟩ from by
        simp only [depStep]; rw [if_neg hd]] at h
      cases hins : addDependencies P f d ⟨s₀.visited, s₀.deps ++ [d]⟩ with
      | none =>
        rw [hins, foldl_depStep_none] at h
        cases h
      | some s₁ =>
        rw [hins] at h
        exact ihds s₁ st' h x (IH d _ s₁ hins x hx)

lemma adMono (P : List OpenWrtPackage) :
    ∀ (f : Nat) (n : String) (st st' : DepState),
      addDependencies P f n st = some st' → ∀ x, x ∈ st.visited → x ∈ st'.visited := by
  intro f
  induction f with
  | zero => intro n st st' h; cases h
  | succ f ih =>
    intro n st st' h x hx
    rw [addDependencies_succ] at h
    by_cases hv : st.visited.contains n
    · rw [if_pos hv] at h
      cases Option.some.inj h
      exact hx
    · rw [if_neg hv] at h
      cases hfind : P.find? (fun p => p.name == n) with
      | none =>
        rw [hfind] at h
        cases Option.some.inj h
        exact List.mem_cons_of_mem _ hx
      | some pkg =>
        rw [hfind] at h
        exact depLoopMono_aux P f ih pkg.depends ⟨n :: st.visited, st.deps⟩ st' h x
          (List.mem_cons_of_mem _ hx)

lemma depLoopMono (P : List OpenWrtPackage) (f : Nat) :
    ∀ (ds : List String) (s₀ st' : DepState),
      ds.foldl (depStep P f) (some s₀) = some st' →
      ∀ x, x ∈ s₀.visited → x ∈ st'.visited :=
  depLoopMono_aux P f (adMono P f)

lemma depStep_visited {P : List OpenWrtPackage} {f : Nat} {s : DepState} {d : String}
    (hd : s.visited.contains d = true) : depStep P f (some s) d = some s := by
  simp only [depStep]
  rw [if_pos hd]

lemma depStep_not_visited {P : List OpenWrtPackage} {f : Nat} {s : DepState} {d : String}
    (hd : ¬ s.visited.contains d = true) :
    depStep P f (some s) d = addDependencies P f d ⟨s.visited, s.deps ++ [d]⟩ := by
  simp only [depStep]
  rw [if_neg hd]

lemma depLoopInv_aux (P : List OpenWrtPackage) (f : Nat)
    (IH : ∀ n st st', addDependencies P f n st = some st' →
      st.visited.Nodup → st.deps.Nodup → (∀ x ∈ st.deps, x ∈ st.visited ∨ x = n) →
      st'.visited.Nodup ∧ st'.deps.Nodup ∧ (∀ x ∈ st'.deps, x ∈ st'.visited)) :
    ∀ (ds : List String) (s₀ st' : DepState),
      ds.foldl (depStep P f) (some s₀) = some st' →
      s₀.visited.Nodup → s₀.deps.Nodup → (∀ x ∈ s₀.deps, x ∈ s₀.visited) →
      st'.visited.Nodup ∧ st'.deps.Nodup ∧ (∀ x ∈ st'.deps, x ∈ st'.visited) := by
  intro ds
  induction ds with
  | nil =>
    intro s₀ st' h h1 h2 h3
    cases Option.some.inj h
    exact ⟨h1, h2, h3⟩
  | cons d ds ihds =>
    intro s₀ st' h h1 h2 h3
    rw [List.foldl_cons] at h
    by_cases hd : s₀.visited.contains d
    · rw [depStep_visited hd] at h
      exact ihds s₀ st' h h1 h2 h3
    · rw [depStep_not_visited hd] at h
      have hdnm : d ∉ s₀.visited := by
        intro habs
        exact hd (by simpa [List.elem_iff] using habs)
      cases hins : addDependencies P f d ⟨s₀.visited, s₀.deps ++ [d]⟩ with
      | none =>
        rw [hins, foldl_depStep_none] at h
        cases h
      | some s₁ =>
        rw [hins] at h
        have hnodup : (s₀.deps ++ [d]).Nodup := by
          rw [List.nodup_append]
          refine ⟨h2, List.nodup_singleton d, ?_⟩
          intro x hx
          simp only [List.mem_singleton]
          intro hxd
          subst hxd
          exact hdnm (h3 x hx)
        have hJ : ∀ x ∈ s₀.deps ++ [d], x ∈ s₀.visited ∨ x = d := by
          intro x hx
          rcases List.mem_append.mp hx with hx | hx
          · exact Or.inl (h3 x hx)
          · exact Or.inr (List.mem_singleton.mp hx)
        obtain ⟨g1, g2, g3⟩ := IH d _ s₁ hins h1 hnodup hJ
        exact ihds s₁ st' h g1 g2 g3

lemma adInv (P : List OpenWrtPackage) :
    ∀ (f : Nat) (n : String) (st st' : DepState),
      addDependencies P f n st = some st' →
      st.visited.Nodup → st.deps.Nodup → (∀ x ∈ st.deps, x ∈ st.visited ∨ x = n) →
      st'.visited.Nodup ∧ st'.deps.Nodup ∧ (∀ x ∈ st'.deps, x ∈ st'.visited) := by
  intro f
  induction f with
  | zero => intro n st st' h; cases h
  | succ f ih =>
    intro n st st' h h1 h2 h3
    rw [addDependencies_succ] at h
    by_cases hv : st.visited.contains n
    · rw [if_pos hv] at h
      cases Option.some.inj h
      have hnv : n ∈ st.visited := by simpa [List.elem_iff] using hv
      refine ⟨h1, h2, ?_⟩
      intro x hx
      rcases h3 x hx with hx' | rfl
      · exact hx'
      · exact hnv
    · rw [if_neg hv] at h
      have hnnv : n ∉ st.visited := by
        intro habs
        exact hv (by simpa [List.elem_iff] using habs)
      have hvis1 : (n :: st.visited).Nodup := List.nodup_cons.mpr ⟨hnnv, h1⟩
      have hdep1 : ∀ x ∈ st.deps, x ∈ n :: st.visited := by
        intro x hx
        rcases h3 x hx with hx' | rfl
        · exact List.mem_cons_of_mem _ hx'
        · exact List.mem_cons_self _ _
      cases hfind : P.find? (fun p => p.name == n) with
      | none =>
        rw [hfind] at h
        cases Option.some.inj h
        exact ⟨hvis1, h2, hdep1⟩
      | some pkg =>
        rw [hfind] at h
        exact depLoopInv_aux P f ih pkg.depends ⟨n :: st.visited, st.deps⟩ st' h
          hvis1 h2 hdep1

lemma depLoopFuelMono_aux (P : List OpenWrtPackage) (f g : Nat)
    (IH : ∀ n st st', addDependencies P f n st = some st' →
      addDependencies P g n st = some st') :
    ∀ (ds : List String) (s₀ st' : DepState),
      ds.foldl (depStep P f) (some s₀) = some st' →
      ds.foldl (depStep P g) (some s₀) = some st' := by
  intro ds
  induction ds with
  | nil => intro s₀ st' h; exact h
  | cons d ds ihds =>
    intro s₀ st' h
    rw [List.foldl_cons] at h
    rw [List.foldl_cons]
    by_cases hd : s₀.visited.contains d
    · rw [depStep_visited hd] at h
      rw [depStep_visited hd]
      exact ihds s₀ st' h
    · rw [depStep_not_visited hd] at h
      rw [depStep_not_visited hd]
      cases hins : addDependencies P f d ⟨s₀.visited, s₀.deps ++ [d]⟩ with
      | none =>
        rw [hins, foldl_depStep_none] at h
        cases h
      | some s₁ =>
        rw [hins] at h
        rw [IH d _ s₁ hins]
        exact ihds s₁ st' h

lemma adFuelMono (P : List OpenWrtPackage) :
    ∀ (f g : Nat), f ≤ g → ∀ (n : String) (st st' : DepState),
      addDependencies P f n st = some st' → addDependencies P g n st = some st' := by
  intro f
  induction f with
  | zero => intro g _ n st st' h; cases h
  | succ f ih =>
    intro g hfg n st st' h
    rcases g with _ | g
    · exact absurd hfg (by omega)
    · have hfg' : f ≤ g := by omega
      rw [addDependencies_succ] at h
      rw [addDependencies_succ]
      by_cases hv : st.visited.contains n
      · rw [if_pos hv] at h
        rw [if_pos hv]
        exact h
      · rw [if_neg hv] at h
        rw [if_neg hv]
        cases hfind : P.find? (fun p => p.name == n) with
        | none =>
          rw [hfind] at h
          exact h
        | some pkg =>
          rw [hfind] at h
          exact depLoopFuelMono_aux P f g (ih g hfg') pkg.depends _ st' h

lemma depMeasure_deps_irrelevant (P : List OpenWrtPackage) (v deps deps' : List String) :
    depMeasure P ⟨v, deps⟩ = depMeasure P ⟨v, deps'⟩ := rfl

lemma depMeasure_le_of_visited_mono (P : List OpenWrtPackage) {st₁ st₂ : DepState}
    (h : ∀ x, x ∈ st₁.visited → x ∈ st₂.visited) :
    depMeasure P st₂ ≤ depMeasure P st₁ := by
  apply Finset.card_le_card
  apply Finset.sdiff_subset_sdiff (Finset.Subset.refl _)
  intro x hx
  rw [List.mem_toFinset] at hx ⊢
  exact h x hx

lemma depMeasure_cons_lt (P : List OpenWrtPackage) {n : String} (hn : n ∈ depUniv P)
    {st : DepState} (hnv : n ∉ st.visited) :
    depMeasure P ⟨n :: st.visited, st.deps⟩ < depMeasure P st := by
  unfold depMeasure
  simp only [List.toFinset_cons]
  rw [Finset.sdiff_insert]
  apply Finset.card_erase_lt_of_mem
  rw [Finset.mem_sdiff, List.mem_toFinset, List.mem_toFinset]
  exact ⟨hn, hnv⟩

lemma depLoopSucc_aux (P : List OpenWrtPackage) (f : Nat)
    (IH : ∀ (n : String) (st : DepState),
      (n ∈ depUniv P ∨ n ∈ st.visited) → depMeasure P st + 1 ≤ f →
      ∃ st', addDependencies P f n st = some st') :
    ∀ (ds : List String) (s₀ : DepState),
      (∀ d ∈ ds, d ∈ depUniv P) → depMeasure P s₀ + 1 ≤ f →
      ∃ st', ds.foldl (depStep P f) (some s₀) = some st' := by
  intro ds
  induction ds with
  | nil => intro s₀ _ _; exact ⟨s₀, rfl⟩
  | cons d ds ihds =>
    intro s₀ hds hm
    rw [List.foldl_cons]
    by_cases hd : s₀.visited.contains d
    · rw [depStep_visited hd]
      exact ihds s₀ (fun x hx => hds x (List.mem_cons_of_mem _ hx)) hm
    · rw [depStep_not_visited hd]
      obtain ⟨s₁, hs₁⟩ := IH d ⟨s₀.visited, s₀.deps ++ [d]⟩
        (Or.inl (hds d (List.mem_cons_self _ _))) hm
      rw [hs₁]
      apply ihds s₁ (fun x hx => hds x (List.mem_cons_of_mem _ hx))
      have hmono := adMono P f d _ s₁ hs₁
      have hle : depMeasure P s₁ ≤ depMeasure P ⟨s₀.visited, s₀.deps ++ [d]⟩ :=
        depMeasure_le_of_visited_mono P hmono
      have heq : depMeasure P ⟨s₀.visited, s₀.deps ++ [d]⟩ = depMeasure P s₀ := rfl
      omega

lemma adSucc (P : List OpenWrtPackage) :
    ∀ (f : Nat) (n : String) (st : DepState),
      (n ∈ depUniv P ∨ n ∈ st.visited) → depMeasure P st + 1 ≤ f →
      ∃ st', addDependencies P f n st = some st' := by
  intro f
  induction f with
  | zero => intro n st _ hm; exact absurd hm (by omega)
  | succ f ih =>
    intro n st hn hm
    rw [addDependencies_succ]
    by_cases hv : st.visited.contains n
    · rw [if_pos hv]
      exact ⟨st, rfl⟩
    · rw [if_neg hv]
      have hnv : n ∉ st.visited := by
        intro habs
        exact hv (List.elem_iff.mpr habs)
      have hnu : n ∈ depUniv P := hn.resolve_right hnv
      have hlt := depMeasure_cons_lt P hnu hnv
      cases hfind : P.find? (fun p => p.name == n) with
      | none => exact ⟨_, rfl⟩
      | some pkg =>
        apply depLoopSucc_aux P f ih pkg.depends ⟨n :: st.visited, st.deps⟩
        · intro d hd
          have hpkg : pkg ∈ P := List.mem_of_find?_eq_some hfind
          exact List.mem_dedup.mpr (List.mem_flatMap.mpr ⟨pkg, hpkg, hd⟩)
        · omega

/-- C6: the dependency-tree traversal terminates for every package name and
every finite catalog, cycles included: the fuel `getDependencyTree` supplies
always suffices and any larger fuel gives the same state; the visited set
never holds a name twice, the returned list has no duplicate names and every
returned name was visited; on the concrete cyclic catalog
`a -> [b, e], b -> [c, a]` the discovery order is depth-first,
first-dependency-first: `["b", "c", "e"]`. -/
theorem getDependencyTree_terminates :
    (∀ (packageName : String) (packages : List OpenWrtPackage),
      ∃ st : DepState,
        addDependencies packages (depFuel packages) packageName ⟨[], []⟩ = some st ∧
        getDependencyTree packageName packages = st.deps ∧
        st.deps.Nodup ∧ st.visited.Nodup ∧ (∀ x ∈ st.deps, x ∈ st.visited) ∧
        (∀ g, depFuel packages ≤ g →
          addDependencies packages g packageName ⟨[], []⟩ = some st)) ∧
    getDependencyTree "a"
      [{ name := "a", version := "1", depends := ["b", "e"], architecture := "x",
         filename := "fa", source := "s" },
       { name := "b", version := "1", depends := ["c", "a"], architecture := "x",
         filename := "fb", source := "s" }] = ["b", "c", "e"] := by
  refine ⟨?_, by decide⟩
  intro n P
  obtain ⟨st, hst⟩ : ∃ st, addDependencies P (depFuel P) n ⟨[], []⟩ = some st := by
    unfold depFuel
    rw [show (P.flatMap (fun p => p.depends)).length + 2 =
        ((P.flatMap (fun p => p.depends)).length + 1) + 1 from rfl]
    rw [addDependencies_succ]
    rw [if_neg (show ¬(DepState.mk [] []).visited.contains n = true from
      fun h => Bool.false_ne_true h)]
    cases hfind : P.find? (fun p => p.name == n) with
    | none => exact ⟨_, rfl⟩
    | some pkg =>
      apply depLoopSucc_aux P _ (adSucc P _) pkg.depends ⟨[n], []⟩
      · intro d hd
        exact List.mem_dedup.mpr
          (List.mem_flatMap.mpr ⟨pkg, List.mem_of_find?_eq_some hfind, hd⟩)
      · have h1 : depMeasure P ⟨[n], []⟩ ≤ (depUniv P).toFinset.card :=
          Finset.card_le_card (Finset.sdiff_subset)
        have h2 : (depUniv P).toFinset.card ≤ (depUniv P).length :=
          List.toFinset_card_le _
        have h3 : (depUniv P).length ≤ (P.flatMap (fun p => p.depends)).length :=
          (List.dedup_sublist _).length_le
        omega
  obtain ⟨v1, v2, v3⟩ := adInv P (depFuel P) n ⟨[], []⟩ st hst List.nodup_nil
    List.nodup_nil (fun x hx => absurd hx (List.not_mem_nil x))
  refine ⟨st, hst, ?_, v2, v1, v3, ?_⟩
  · simp only [getDependencyTree, hst]
  · intro g hg
    exact adFuelMono P (depFuel P) g hg n _ st hst

/-- Witness for `getDependencyTree_terminates`: the cyclic two-package
catalog gives a duplicate-free tree, and adding extra fuel does not change
the traversal's result. -/
theorem getDependencyTree_terminates_witness :
    (getDependencyTree "a"
      [{ name := "a", version := "1", depends := ["b", "e"], architecture := "x",
         filename := "fa", source := "s" },
       { name := "b", version := "1", depends := ["c", "a"], architecture := "x",
         filename := "fb", source := "s" }]).Nodup ∧
    addDependencies
      [{ name := "a", version := "1", depends := ["b", "e"], architecture := "x",
         filename := "fa", source := "s" },
       { name := "b", version := "1", depends := ["c", "a"], architecture := "x",
         filename := "fb", source := "s" }]
      (depFuel
        [{ name := "a", version := "1", depends := ["b", "e"], architecture := "x",
           filename := "fa", source := "s" },
         { name := "b", version := "1", depends := ["c", "a"], architecture := "x",
           filename := "fb", source := "s" }] + 5) "a" ⟨[], []⟩ =
    addDependencies
      [{ name := "a", version := "1", depends := ["b", "e"], architecture := "x",
         filename := "fa", source := "s" },
       { name := "b", version := "1", depends := ["c", "a"], architecture := "x",
         filename := "fb", source := "s" }]
      (depFuel
        [{ name := "a", version := "1", depends := ["b", "e"], architecture := "x",
           filename := "fa", source := "s" },
         { name := "b", version := "1", depends := ["c", "a"], architecture := "x",
           filename := "fb", source := "s" }]) "a" ⟨[], []⟩ := by
  obtain ⟨st, h1, h2, h3, _, _, h6⟩ := getDependencyTree_terminates.1 "a"
    [{ name := "a", version := "1", depends := ["b", "e"], architecture := "x",
       filename := "fa", source := "s" },
     { name := "b", version := "1", depends := ["c", "a"], architecture := "x",
       filename := "fb", source := "s" }]
  refine ⟨h2 ▸ h3, ?_⟩
  rw [h6 _ (by omega), h1]
